import Mathlib

/-!
Verification of the kovi-plugin-oai command system: a shallow embedding of
the normalizer, index resolver, command parser, persona registry/history
operations, generation-state tracker and dispatcher state effects from
`src/lib.rs`, together with theorems settling the frozen claims.

Rust strings are modelled as `List Char` (the sequence of Unicode scalar
values).  Byte-indexed slicing — which Rust performs on UTF-8 data and which
panics when an index does not fall on a character boundary — is modelled
explicitly through `utf8Len`/`byteSplitAt`; a slice that would panic is an
`Except.error`.
-/

namespace Oai

/-- UTF-8 encoded length in bytes of one Unicode scalar value, as in Rust
`char::len_utf8`. -/
def utf8Len (c : Char) : Nat :=
  if c.toNat < 0x80 then 1
  else if c.toNat < 0x800 then 2
  else if c.toNat < 0x10000 then 3
  else 4

/-- Byte length of a string, as in Rust `str::len`. -/
def byteLen (s : List Char) : Nat := (s.map utf8Len).sum

/-- Split a string at byte offset `n`.  Returns `none` when `n` is not on a
character boundary or lies beyond the end — the situations in which Rust
slice indexing panics (`str::get` instead returns `None`). -/
def byteSplitAt : List Char → Nat → Option (List Char × List Char)
  | s, 0 => some ([], s)
  | [], _ + 1 => none
  | c :: rest, n + 1 =>
    if utf8Len c ≤ n + 1 then
      match byteSplitAt rest (n + 1 - utf8Len c) with
      | some p => some (c :: p.1, p.2)
      | none => none
    else none

/-- Rust `s.get(n..)`: the tail from byte offset `n`, or `none` off-boundary. -/
def byteDropO (s : List Char) (n : Nat) : Option (List Char) :=
  (byteSplitAt s n).map (·.2)

/-- Byte index of the first character satisfying `p`, as Rust `str::find`. -/
def findByteIdx (p : Char → Bool) : List Char → Option Nat
  | [] => none
  | c :: rest => if p c then some 0 else (findByteIdx p rest).map (· + utf8Len c)

/-- Whitespace test backing Rust `char::is_whitespace` for the characters
that occur in the command language (ASCII whitespace and the ideographic
space). -/
def isWs (c : Char) : Bool :=
  c = ' ' || c = '\t' || c = '\n' || c = '\r' || c = '　'

/-- Rust `str::trim`. -/
def trimL (s : List Char) : List Char :=
  ((s.dropWhile isWs).reverse.dropWhile isWs).reverse

/-- Full-width to half-width character table from `utils::normalize`. -/
def normChar (c : Char) : Char :=
  match c with
  | '！' => '!'
  | '＠' => '@'
  | '＃' => '#'
  | '＄' => '$'
  | '％' => '%'
  | '＊' => '*'
  | '（' => '('
  | '）' => ')'
  | '－' => '-'
  | '＋' => '+'
  | '：' => ':'
  | '；' => ';'
  | '“' => '"'
  | '”' => '"'
  | '‘' => Char.ofNat 39
  | '’' => Char.ofNat 39
  | '，' => ','
  | '。' => '.'
  | '？' => '?'
  | '～' => '~'
  | '＿' => '_'
  | '＆' => '&'
  | '／' => '/'
  | '＝' => '='
  | _ => c

/-- Rust `utils::normalize`: character-wise full-width to half-width map. -/
def normalize (s : List Char) : List Char := s.map normChar

/-- ASCII digit test, as the regex class `\d`. -/
def isDigitC (c : Char) : Bool := '0' ≤ c && c ≤ '9'

/-- Value of a digit run (most significant first). -/
def natOfDigits (ds : List Char) : Nat :=
  ds.foldl (fun n c => n * 10 + (c.toNat - 48)) 0

/-- Rust `start..=end` collected into a list; empty when `b < a`. -/
def rangeIncl (a b : Nat) : List Nat := List.range' a (b + 1 - a)

/-- Scanner state for the regex `(\d+)(?:-(\d+))?` used by
`utils::parse_indices`: outside a match, inside the first digit run, just
past a dash, or inside the second digit run. -/
inductive ScanSt
  | start
  | first (n : Nat)
  | dash (n : Nat)
  | second (a b : Nat)

/-- Values emitted when the input ends in a given scanner state. -/
def scanFlush : ScanSt → List Nat
  | .start => []
  | .first n => [n]
  | .dash n => [n]
  | .second a b => rangeIncl a b

/-- Deterministic left-to-right execution of the regex
`(\d+)(?:-(\d+))?` via `captures_iter`: each maximal digit run optionally
followed by `-digits` contributes a bare value or an inclusive range;
every other character merely separates matches. -/
def scanGo : ScanSt → List Char → List Nat
  | st, [] => scanFlush st
  | st, c :: rest =>
    match st with
    | .start =>
      if isDigitC c then scanGo (.first (c.toNat - 48)) rest
      else scanGo .start rest
    | .first n =>
      if isDigitC c then scanGo (.first (n * 10 + (c.toNat - 48))) rest
      else if c = '-' then scanGo (.dash n) rest
      else n :: scanGo .start rest
    | .dash n =>
      if isDigitC c then scanGo (.second n (c.toNat - 48)) rest
      else n :: scanGo .start rest
    | .second a b =>
      if isDigitC c then scanGo (.second a (b * 10 + (c.toNat - 48))) rest
      else rangeIncl a b ++ scanGo .start rest

/-- All values produced by the regex scan over a string. -/
def scanIdx (s : List Char) : List Nat := scanGo .start s

/-- Remove consecutive duplicates, as Rust `Vec::dedup`. -/
def dedupConsec : List Nat → List Nat
  | [] => []
  | [a] => [a]
  | a :: b :: t => if a = b then dedupConsec (b :: t) else a :: dedupConsec (b :: t)

/-- Rust replace of the full-width comma in `utils::parse_indices`. -/
def replComma (s : List Char) : List Char :=
  s.map (fun c => if c = '，' then ',' else c)

/-- Rust `utils::parse_indices`: regex scan, then sort ascending, then dedup. -/
def parse_indices (s : List Char) : List Nat :=
  dedupConsec (List.insertionSort (· ≤ ·) (scanIdx (replComma s)))

/-- Apostrophe character (the edit operator). -/
def aposC : Char := Char.ofNat 39

/-- Reserved symbol set of `parser::parse_create` and the copy/rename
validation in `logic::execute` — the characters of the Rust literal
string of forbidden name characters, space included. -/
def reservedSyms : List Char :=
  ['&', '"', '#', '~', '/', ' ', '-', '_', aposC, '!', '@', '$', '%', ':', '*']

/-- Rust `str::split_whitespace`. -/
def splitWsGo (cur : List Char) : List Char → List (List Char)
  | [] => if cur = [] then [] else [cur.reverse]
  | c :: rest =>
    if isWs c then
      if cur = [] then splitWsGo [] rest else cur.reverse :: splitWsGo [] rest
    else splitWsGo (c :: cur) rest

/-- Words of a string separated by whitespace runs. -/
def splitWs (s : List Char) : List (List Char) := splitWsGo [] s

/-- Rust `(rest[1..pos].to_string(), &rest[pos+1..])` in
`parser::parse_create`: the byte slices around a parenthesized description.
Both slices panic when the cut is not on a character boundary. -/
def descAt (rest : List Char) (pos : Nat) : Except Unit (List Char × List Char) :=
  match byteSplitAt rest 1 with
  | none => Except.error ()
  | some q1 =>
    match byteSplitAt q1.2 (pos - 1) with
    | none => Except.error ()
    | some q2 =>
      match byteSplitAt rest (pos + 1) with
      | none => Except.error ()
      | some q3 => Except.ok (q2.1, q3.2)

/-- Description extraction of `parser::parse_create`: an opening paren
(half or full width) begins a description ended by the first `)` if any,
else the first `）`, else no description. -/
def descSplit (rest : List Char) : Except Unit (List Char × List Char) :=
  if ['('].isPrefixOf rest || ['（'].isPrefixOf rest then
    match findByteIdx (fun c => c = ')') rest with
    | some pos => descAt rest pos
    | none =>
      match findByteIdx (fun c => c = '）') rest with
      | some pos => descAt rest pos
      | none => Except.ok ([], rest)
  else Except.ok ([], rest)

/-- Rust `parser::parse_create`.  The result is `(name, desc, model,
prompt)`; `Except.error` marks the byte slices of the original code that
panic when a byte offset computed on the normalized string is applied to
the raw string (for example a full-width `＃＃` prefix or full-width
parentheses). -/
def parse_create (raw0 : List Char) :
    Except Unit (Option (List Char × List Char × List Char × List Char)) :=
  let rawT := trimL raw0
  let norm := normalize rawT
  if ['#', '#'].isPrefixOf norm then
    match byteSplitAt rawT 2 with
    | none => Except.error ()
    | some pr =>
      let after := pr.2
      let nameEnd :=
        (findByteIdx (fun c => isWs c || c = '(' || c = '（') after).getD (byteLen after)
      match byteSplitAt after nameEnd with
      | none => Except.error ()
      | some pr2 =>
        let name := trimL pr2.1
        if name = [] || 7 < name.length || name.any (fun c => reservedSyms.contains c) then
          Except.ok none
        else
          match descSplit pr2.2 with
          | Except.error e => Except.error e
          | Except.ok dr =>
            let parts := splitWs dr.2
            let model := parts.headD []
            if 50 < model.length then Except.ok none
            else
              let prompt :=
                if 1 < parts.length then List.intercalate [' '] (parts.drop 1) else []
              Except.ok (some (name, dr.1, model, prompt))
  else Except.ok none

/-- Scope of a history operation. -/
inductive Scope
  | Public
  | Private
deriving DecidableEq

/-- The `parser::Action` enumeration. -/
inductive Action
  | Chat
  | Regenerate
  | Stop
  | Create
  | Copy
  | Rename
  | SetDesc
  | Delete
  | ListAgents
  | SetModel
  | SetPrompt
  | ViewPrompt
  | ListModels
  | ViewAll (s : Scope)
  | ViewAt (s : Scope)
  | Export (s : Scope)
  | EditAt (s : Scope)
  | DeleteAt (s : Scope)
  | ClearHistory (s : Scope)
  | ClearAllPublic
  | ClearEverything
  | Help
  | AutoFillDescriptions (arg : List Char)
deriving DecidableEq

/-- The `parser::Command` record. -/
structure Command where
  agent : List Char
  action : Action
  args : List Char
  indices : List Nat
  private_reply : Bool
  text_mode : Bool
deriving DecidableEq

/-- Rust `splitn(2, ' ')`: the part before the first space, and optionally
the remainder after it. -/
def splitN2Space (s : List Char) : List Char × Option (List Char) :=
  match s.findIdx? (fun c => c = ' ') with
  | some i => (s.take i, some (s.drop (i + 1)))
  | none => (s, none)

/-- Rust `parser::parse_suffix`: dispatch of the operator suffix after a
persona name.  `norm` is the normalized suffix, `raw` the raw suffix used
for payload extraction, `privPfx` whether the global private mode prefix
was present. -/
def parse_suffix (norm raw : List Char) (privPfx : Bool) :
    Action × List Char × List Nat :=
  let s := trimL norm
  let r := trimL raw
  if s = [] then (.Chat, r, [])
  else if (s == ['~'] || s == ['～'])
      || ((['~'].isPrefixOf s || ['～'].isPrefixOf s)
          && !(['~', '#'].isPrefixOf s) && !(['~', '$'].isPrefixOf s)
          && !(['～', '#'].isPrefixOf s) && !(['～', '$'].isPrefixOf s)) then
    let skip := if ['～'].isPrefixOf s then 3 else 1
    (.Regenerate, trimL ((byteDropO r skip).getD []), [])
  else if s == ['!'] then (.Stop, [], [])
  else if ['~', '#'].isPrefixOf s || ['~', '＃'].isPrefixOf s then
    let skip := if ['~', '＃'].isPrefixOf r then 6 else 2
    (.Copy, trimL ((byteDropO r skip).getD []), [])
  else if ['~', '='].isPrefixOf s || ['~', '＝'].isPrefixOf s then
    let skip := if ['~', '＝'].isPrefixOf r then 4 else 2
    (.Rename, trimL ((byteDropO r skip).getD []), [])
  else if ([':'].isPrefixOf s || ['：'].isPrefixOf s)
      && !([':', '/'].isPrefixOf s) && !(['：', '/'].isPrefixOf s) then
    let skip := if ['：'].isPrefixOf r then 3 else 1
    (.SetDesc, trimL ((byteDropO r skip).getD []), [])
  else if ['%'].isPrefixOf s then
    (.SetModel, trimL ((byteDropO r 1).getD []), [])
  else if ['$'].isPrefixOf s && s != ['/', '$'] then
    (.SetPrompt, trimL ((byteDropO r 1).getD []), [])
  else if s == ['/', '$'] then (.ViewPrompt, [], [])
  else
    let lp : Bool × List Char × List Char :=
      match s, r with
      | '&' :: s', '&' :: r' => (true, s', trimL r')
      | '&' :: s', _ => (true, s', trimL [])
      | _, _ => (false, s, r)
    let hasLocalPriv := lp.1
    let clean := lp.2.1
    let cleanRaw := lp.2.2
    let scope := if privPfx || hasLocalPriv then Scope.Private else Scope.Public
    if clean == ['/', '*'] then (.ViewAll scope, [], [])
    else
      let viewIdx :=
        if ['/'].isPrefixOf clean && 1 < byteLen clean then parse_indices (clean.drop 1)
        else []
      if viewIdx ≠ [] then (.ViewAt scope, [], viewIdx)
      else if clean == ['_', '*'] then (.Export scope, [], [])
      else if [aposC].isPrefixOf clean then
        let parts := splitN2Space ((byteDropO cleanRaw 1).getD [])
        (.EditAt scope, parts.2.getD [], parse_indices parts.1)
      else if clean == ['-', '*'] then (.ClearHistory scope, [], [])
      else
        let delIdx :=
          if ['-'].isPrefixOf clean && 1 < byteLen clean then parse_indices (clean.drop 1)
          else []
        if delIdx ≠ [] then (.DeleteAt scope, [], delIdx)
        else (.Chat, r, [])

/-- Leading mode-prefix scan of `parser::parse_agent_cmd`: consumes `&`
and `"` characters, each occurrence setting its flag, and reports how many
characters were consumed together with the two flags. -/
def modeScan : List Char → Bool → Bool → Nat × Bool × Bool
  | [], p, t => (0, p, t)
  | c :: rest, p, t =>
    if c = '&' then
      let res := modeScan rest true t
      (res.1 + 1, res.2)
    else if c = '"' then
      let res := modeScan rest p true
      (res.1 + 1, res.2)
    else (0, p, t)

/-- Character-wise lower casing used for the case-insensitive persona-name
match (`str::to_lowercase` on the names and command text). -/
def toLowerL (s : List Char) : List Char := s.map Char.toLower

/-- Ordering used to sort persona names by decreasing character count
before prefix matching. -/
def rLen (a b : List Char) : Prop := b.length ≤ a.length

instance : DecidableRel rLen := fun a b => Nat.decLe b.length a.length

instance : IsTotal (List Char) rLen :=
  ⟨fun a b => Nat.le_total b.length a.length⟩

instance : IsTrans (List Char) rLen :=
  ⟨fun _ _ _ hab hbc => Nat.le_trans hbc hab⟩

/-- Remaining command text after the leading mode prefixes are consumed
from the normalized, trimmed input. -/
def remAfterModes (raw0 : List Char) : List Char :=
  let norm := normalize (trimL raw0)
  norm.drop (modeScan norm false false).1

/-- Rust `parser::parse_agent_cmd`: mode-prefix scan, longest
case-insensitive persona-name prefix match (names tried in descending
character-count order), then suffix dispatch. -/
def parse_agent_cmd (raw0 : List Char) (agents : List (List Char)) : Option Command :=
  let raw := trimL raw0
  if raw = [] then none
  else
    let norm := normalize raw
    let ms := modeScan norm false false
    let content := norm.drop ms.1
    let sorted := List.insertionSort rLen agents
    match sorted.find? (fun nm => (toLowerL nm).isPrefixOf (toLowerL content)) with
    | none => none
    | some nm =>
      let suffix := trimL (content.drop nm.length)
      let rawSuffix := trimL ((raw.drop ms.1).drop nm.length)
      let res := parse_suffix suffix rawSuffix ms.2.1
      some ⟨nm, res.1, res.2.1, res.2.2, ms.2.1, ms.2.2⟩

/-- The `types::ChatMessage` record.  Creation time is external input; it
is modelled as the constant 0. -/
structure ChatMessage where
  role : String
  content : String
  images : List String
  timestamp : Int
deriving DecidableEq

/-- Rust `ChatMessage::new`. -/
def ChatMessage.new (role content : String) (images : List String) : ChatMessage :=
  ⟨role, content, images, 0⟩

/-- The `types::Agent` record.  The private-history `HashMap` is modelled
as an association list with unique keys. -/
structure Agent where
  name : String
  description : String
  model : String
  system_prompt : String
  public_history : List ChatMessage
  private_histories : List (String × List ChatMessage)
  generation_id : Nat
  created_at : Int
deriving DecidableEq

/-- Rust `Agent::new`. -/
def Agent.new (name model prompt desc : String) : Agent :=
  ⟨name, desc, model, prompt, [], [], 0, 0⟩

/-- Lookup in the private-history map (`HashMap::get`). -/
def lookupPriv (m : List (String × List ChatMessage)) (uid : String) :
    Option (List ChatMessage) :=
  (m.find? (fun p => p.1 == uid)).map (·.2)

/-- Rust `entry(uid).or_default()` followed by a mutation of the entry. -/
def updatePriv (m : List (String × List ChatMessage)) (uid : String)
    (f : List ChatMessage → List ChatMessage) : List (String × List ChatMessage) :=
  match m with
  | [] => [(uid, f [])]
  | p :: t => if p.1 == uid then (p.1, f p.2) :: t else p :: updatePriv t uid f

/-- Rust `get_mut(uid)` followed by `clear()`: clears the entry when it
exists and otherwise leaves the map untouched. -/
def clearPriv (m : List (String × List ChatMessage)) (uid : String) :
    List (String × List ChatMessage) :=
  match m with
  | [] => []
  | p :: t => if p.1 == uid then (p.1, []) :: t else p :: clearPriv t uid

/-- Rust `Agent::history`: the public sequence, or the private sequence of
`uid` (absent means empty). -/
def Agent.history (a : Agent) (priv : Bool) (uid : String) : List ChatMessage :=
  if priv then (lookupPriv a.private_histories uid).getD [] else a.public_history

/-- Rust `Agent::history_mut` followed by a mutation: applies `f` to the
selected history, creating the private entry on first write. -/
def withHistory (a : Agent) (priv : Bool) (uid : String)
    (f : List ChatMessage → List ChatMessage) : Agent :=
  if priv then { a with private_histories := updatePriv a.private_histories uid f }
  else { a with public_history := f a.public_history }

/-- Rust `Agent::clear_history`. -/
def Agent.clear_history (a : Agent) (priv : Bool) (uid : String) : Agent :=
  if priv then { a with private_histories := clearPriv a.private_histories uid }
  else { a with public_history := [] }

/-- In-place index update used by `Agent::edit_at`. -/
def modifyIdx (f : ChatMessage → ChatMessage) : Nat → List ChatMessage → List ChatMessage
  | _, [] => []
  | 0, a :: t => f a :: t
  | n + 1, a :: t => a :: modifyIdx f n t

/-- Rust `Agent::edit_at` on the selected history: in-place content
replacement when `1 ≤ idx ≤ length`, reporting success. -/
def edit_at (h : List ChatMessage) (idx : Nat) (content : String) :
    List ChatMessage × Bool :=
  if 1 ≤ idx ∧ idx ≤ h.length then
    (modifyIdx (fun m => { m with content := content }) (idx - 1) h, true)
  else (h, false)

/-- Descending order used by `sorted.sort_by(|a, b| b.cmp(a))`. -/
def rGe (a b : Nat) : Prop := b ≤ a

instance : DecidableRel rGe := fun a b => Nat.decLe b a

instance : IsTotal Nat rGe := ⟨fun a b => Nat.le_total b a⟩

instance : IsTrans Nat rGe := ⟨fun _ _ _ hab hbc => Nat.le_trans hbc hab⟩

/-- The removal loop of `Agent::delete_at`: processes the prepared
(descending, deduplicated) index list, removing each in-range 1-based
position from the current sequence and recording it. -/
def delLoop {α : Type} : List α → List Nat → List α × List Nat
  | h, [] => (h, [])
  | h, i :: rest =>
    if 1 ≤ i ∧ i ≤ h.length then
      let r := delLoop (h.eraseIdx (i - 1)) rest
      (r.1, i :: r.2)
    else delLoop h rest

/-- Rust `Agent::delete_at` on the selected history: sort the indices
descending, dedup, remove from back to front, return the positions
actually removed in ascending order. -/
def delete_at {α : Type} (h : List α) (indices : List Nat) : List α × List Nat :=
  let sorted := dedupConsec (List.insertionSort rGe indices)
  let r := delLoop h sorted
  (r.1, r.2.reverse)

/-- The `types::GeneratingState` record: the public set and the per-agent
private user sets, modelled as characteristic functions. -/
structure GeneratingState where
  publicSet : String → Bool
  privateMap : String → Option (String → Bool)

/-- The empty tracker (`GeneratingState::default`). -/
def GeneratingState.empty : GeneratingState := ⟨fun _ => false, fun _ => none⟩

/-- Rust `GeneratingState::is_generating`. -/
def is_generating (g : GeneratingState) (agent : String) (priv : Bool) (uid : String) :
    Bool :=
  if priv then
    match g.privateMap agent with
    | some s => s uid
    | none => false
  else g.publicSet agent

/-- Rust `GeneratingState::set_generating`. -/
def set_generating (g : GeneratingState) (agent : String) (priv : Bool) (uid : String)
    (v : Bool) : GeneratingState :=
  if priv then
    let s := (g.privateMap agent).getD (fun _ => false)
    { g with privateMap := fun a =>
        if a = agent then some (fun u => if u = uid then v else s u) else g.privateMap a }
  else if v then
    { g with publicSet := fun a => if a = agent then true else g.publicSet a }
  else
    { g with publicSet := fun a => if a = agent then false else g.publicSet a }

/-- The check-and-mark step of `logic::chat`: fail busy without side
effects when the key is already marked, otherwise mark it. -/
def tryStart (g : GeneratingState) (agent : String) (priv : Bool) (uid : String) :
    GeneratingState × Bool :=
  if is_generating g agent priv uid then (g, false)
  else (set_generating g agent priv uid true, true)

/-- Unmark a key (the `set_generating(.., false)` calls on completion,
error, timeout and stop). -/
def finish (g : GeneratingState) (agent : String) (priv : Bool) (uid : String) :
    GeneratingState :=
  set_generating g agent priv uid false

/-- The `types::Config` record (registry). -/
structure Config where
  api_base : String
  api_key : String
  models : List String
  agents : List Agent
  default_model : String
  default_prompt : String
deriving DecidableEq

/-- Rust `str::contains`: substring containment test. -/
def containsSub (needle : List Char) : List Char → Bool
  | [] => needle.isEmpty
  | c :: rest => needle.isPrefixOf (c :: rest) || containsSub needle rest

/-- Rust `usize::from_str`: decimal digits with an optional leading plus. -/
def parseUsize (s : List Char) : Option Nat :=
  match s with
  | '+' :: rest =>
    if rest ≠ [] ∧ rest.all isDigitC then some (natOfDigits rest) else none
  | _ => if s ≠ [] ∧ s.all isDigitC then some (natOfDigits s) else none

/-- Rust `Manager::resolve_model`: empty input resolves to nothing; a
number selects by 1-based index into the model list; otherwise the first
model whose lower-cased id contains the lower-cased input; otherwise the
input itself. -/
def resolve_model (input : String) (models : List String) : Option String :=
  if input = "" then none
  else
    let idxHit : Option String :=
      match parseUsize input.data with
      | some i => if 1 ≤ i ∧ i ≤ models.length then some (models.getD (i - 1) "") else none
      | none => none
    match idxHit with
    | some m => some m
    | none =>
      let lower := toLowerL input.data
      match models.find? (fun m => containsSub lower (toLowerL m.data)) with
      | some m => some m
      | none => some input

/-- Mutation of the first agent with a given name
(`agents.iter_mut().find(|a| a.name == name)`). -/
def updateAgentNamed (l : List Agent) (name : String) (f : Agent → Agent) : List Agent :=
  match l with
  | [] => []
  | a :: t => if a.name == name then f a :: t else a :: updateAgentNamed t name f

/-- Version counter of the first agent with a given name. -/
def agentGen (c : Config) (name : String) : Option Nat :=
  (c.agents.find? (fun a => a.name == name)).map (·.generation_id)

/-- State effect of the persistence step of `logic::chat` for a new user
message (non-regenerate path): the selected history gets the message
appended and the version counter is incremented. -/
def execChatAppend (c : Config) (name : String) (priv : Bool) (uid : String)
    (m : ChatMessage) : Config :=
  { c with agents := updateAgentNamed c.agents name (fun a =>
      let a1 := withHistory a priv uid (fun h => h ++ [m])
      { a1 with generation_id := a1.generation_id + 1 }) }

/-- State effect of `Action::Stop` on the registry. -/
def execStop (c : Config) (name : String) : Config :=
  { c with agents := updateAgentNamed c.agents name (fun a =>
      { a with generation_id := a.generation_id + 1 }) }

/-- State effect of `Action::EditAt`. -/
def execEditAt (c : Config) (name : String) (priv : Bool) (uid : String)
    (idx : Nat) (content : String) : Config :=
  { c with agents := updateAgentNamed c.agents name (fun a =>
      withHistory a priv uid (fun h => (edit_at h idx content).1)) }

/-- State effect of `Action::DeleteAt`. -/
def execDeleteAt (c : Config) (name : String) (priv : Bool) (uid : String)
    (idxs : List Nat) : Config :=
  { c with agents := updateAgentNamed c.agents name (fun a =>
      withHistory a priv uid (fun h => (delete_at h idxs).1)) }

/-- State effect of `Action::ClearHistory`. -/
def execClearHistory (c : Config) (name : String) (priv : Bool) (uid : String) : Config :=
  { c with agents := updateAgentNamed c.agents name (fun a =>
      let a1 := a.clear_history priv uid
      { a1 with generation_id := a1.generation_id + 1 }) }

/-- State effect of `Action::ClearAllPublic`. -/
def execClearAllPublic (c : Config) : Config :=
  { c with agents := c.agents.map (fun a =>
      { a with public_history := [], generation_id := a.generation_id + 1 }) }

/-- State effect of `Action::ClearEverything`. -/
def execClearEverything (c : Config) : Config :=
  { c with agents := c.agents.map (fun a =>
      { a with public_history := [], private_histories := [],
               generation_id := a.generation_id + 1 }) }

/-- State effect of `Action::Copy` on the registry. -/
def execCopy (c : Config) (name args : String) : Config :=
  if args = "" then c
  else if 7 < args.length || args.data.any (fun ch => reservedSyms.contains ch) then c
  else if c.agents.any (fun a => a.name == args) then c
  else
    match c.agents.find? (fun a => a.name == name) with
    | some src =>
      { c with agents := c.agents ++
          [{ Agent.new args src.model src.system_prompt ("复制自 " ++ name) with
              description := src.description }] }
    | none => c

/-- State effect of `Action::Rename` on the registry: the source locates
the first agent position with the exact name and assigns the new name in
place, which is the first-match update below. -/
def execRename (c : Config) (name args : String) : Config :=
  if args = "" then c
  else if 7 < args.length || args.data.any (fun ch => reservedSyms.contains ch) then c
  else if c.agents.any (fun a => a.name == args) then c
  else { c with agents := updateAgentNamed c.agents name (fun a => { a with name := args }) }

/-- The history-mutating and stop operations whose effect on the version
counter the spec describes. -/
inductive ExecOp
  | chatAppend (name : String) (priv : Bool) (uid : String) (m : ChatMessage)
  | stop (name : String)
  | editAt (name : String) (priv : Bool) (uid : String) (idx : Nat) (content : String)
  | deleteAt (name : String) (priv : Bool) (uid : String) (idxs : List Nat)
  | clearHistory (name : String) (priv : Bool) (uid : String)
  | clearAllPublic
  | clearEverything

/-- Dispatch of a modelled operation to its registry effect. -/
def applyOp (c : Config) : ExecOp → Config
  | .chatAppend name priv uid m => execChatAppend c name priv uid m
  | .stop name => execStop c name
  | .editAt name priv uid idx content => execEditAt c name priv uid idx content
  | .deleteAt name priv uid idxs => execDeleteAt c name priv uid idxs
  | .clearHistory name priv uid => execClearHistory c name priv uid
  | .clearAllPublic => execClearAllPublic c
  | .clearEverything => execClearEverything c

/-- In-place update of an existing persona in `logic::handle_create`: the
model only when the resolved model is non-empty, the system prompt always,
the description only when non-empty. -/
def applyCreateUpdate (model prompt desc : String) (a : Agent) : Agent :=
  let a1 := if model ≠ "" then { a with model := model } else a
  let a2 := { a1 with system_prompt := prompt }
  if desc ≠ "" then { a2 with description := desc } else a2

/-- Rust `logic::handle_create`: update the persona with the exact same
name in place, otherwise register a new one. -/
def handle_create (c : Config) (name desc model prompt : String) : Config :=
  let model := (resolve_model model c.models).getD model
  let prompt :=
    if prompt = "" ∧ ¬ (c.agents.any (fun a => a.name == name)) = true then
      c.default_prompt
    else prompt
  if c.agents.any (fun a => a.name == name) then
    { c with agents := updateAgentNamed c.agents name (applyCreateUpdate model prompt desc) }
  else
    { c with agents := c.agents ++
        [Agent.new name model prompt (if desc = "" then "新建智能体" else desc)] }

/-- Specification-side description of deletion (from the spec wording):
drop exactly the listed 1-based positions, counting positions from `k`,
keeping every other entry in order. -/
def dropPositions {α : Type} (ds : List Nat) : Nat → List α → List α
  | _, [] => []
  | k, a :: t =>
    if k ∈ ds then dropPositions ds (k + 1) t else a :: dropPositions ds (k + 1) t

/-- Nonempty all-digit token. -/
def isDigitsNE (t : List Char) : Bool := !t.isEmpty && t.all isDigitC

/-- Specification-side well-formed index token (from the claim wording): a
bare positive integer or `start-end` with both sides digit runs. -/
def wellTok (t : List Char) : Bool :=
  isDigitsNE t ||
    (!(t.takeWhile isDigitC).isEmpty &&
      (match t.dropWhile isDigitC with
       | c :: d => if c = '-' then isDigitsNE d else false
       | [] => false))

/-- Specification-side denotation of one index token: a bare integer
denotes itself, `start-end` denotes the inclusive range (empty when
reversed), anything else denotes nothing. -/
def denoteTok (t : List Char) : List Nat :=
  if isDigitsNE t then [natOfDigits t]
  else
    match t.dropWhile isDigitC with
    | c :: d =>
      if c = '-' then rangeIncl (natOfDigits (t.takeWhile isDigitC)) (natOfDigits d)
      else []
    | [] => []

/-- Split on a separator character (splitter semantics of the claim). -/
def splitOnChar (sep : Char) : List Char → List (List Char)
  | [] => [[]]
  | c :: rest =>
    if c = sep then [] :: splitOnChar sep rest
    else
      match splitOnChar sep rest with
      | [] => [[c]]
      | t :: ts => (c :: t) :: ts

/-- Comma-separated tokens of an index expression, full-width comma
accepted. -/
def splitCommas (s : List Char) : List (List Char) :=
  splitOnChar ',' (replComma s)

/-- Specification-side index resolver (from the claim wording): the
sorted, deduplicated ascending list of the integers denoted by the
comma-separated tokens. -/
def specIndices (s : List Char) : List Nat :=
  dedupConsec (List.insertionSort (· ≤ ·) ((splitCommas s).flatMap denoteTok))

/-- Concrete message used in the witness/counterexample configurations. -/
def botMsg : ChatMessage := ChatMessage.new "user" "hi" []

/-- Concrete persona used in the witness/counterexample configurations. -/
def botDemo : Agent := ⟨"Bot", "d", "m", "sp", [botMsg], [], 0, 0⟩

/-- Concrete registry used in the witness/counterexample configurations. -/
def cfgDemo : Config := ⟨"", "", [], [botDemo], "gpt-4o", "You are a helpful assistant."⟩

end Oai

namespace Oai

/-! ## Helper lemmas about the tracker -/

theorem isg_set_self (g : GeneratingState) (a u : String) (priv v : Bool) :
    is_generating (set_generating g a priv u v) a priv u = v := by
  cases priv <;> cases v <;> simp [is_generating, set_generating]

theorem isg_set_other_uid (g : GeneratingState) (a u u' : String) (v : Bool)
    (hne : u' ≠ u) :
    is_generating (set_generating g a true u v) a true u' = is_generating g a true u' := by
  cases h : g.privateMap a <;> simp [is_generating, set_generating, h, hne]

theorem isg_set_pub_of_priv (g : GeneratingState) (a u u' : String) (v : Bool) :
    is_generating (set_generating g a true u v) a false u' =
      is_generating g a false u' := by
  simp [is_generating, set_generating]

theorem isg_set_priv_of_pub (g : GeneratingState) (a u u' : String) (v : Bool) :
    is_generating (set_generating g a false u v) a true u' =
      is_generating g a true u' := by
  cases v <;> simp [is_generating, set_generating]

/-! ## Claim theorems: generation tracker (C2) -/

/-- C2: the generation tracker keeps at most one in-flight generation per
(persona, scope, user-when-private) key: a start on a marked key fails busy
with no side effects, a second start after a successful one fails busy,
private starts for distinct users and starts in distinct scopes succeed
independently, and finish unmarks the key unconditionally and is
idempotent. -/
theorem C2_generating_tracker (g : GeneratingState) (agent uid uidA uidB : String)
    (priv : Bool) :
    (is_generating g agent priv uid = true → tryStart g agent priv uid = (g, false))
  ∧ ((tryStart g agent priv uid).2 = true →
      tryStart (tryStart g agent priv uid).1 agent priv uid
        = ((tryStart g agent priv uid).1, false))
  ∧ (uidA ≠ uidB → is_generating g agent true uidB = false →
      (tryStart (tryStart g agent true uidA).1 agent true uidB).2 = true)
  ∧ (is_generating g agent false uid = false →
      (tryStart (tryStart g agent true uidA).1 agent false uid).2 = true)
  ∧ (is_generating g agent true uidA = false →
      (tryStart (tryStart g agent false uid).1 agent true uidA).2 = true)
  ∧ is_generating (finish g agent priv uid) agent priv uid = false
  ∧ finish (finish g agent priv uid) agent priv uid = finish g agent priv uid := by
  refine ⟨?_, ?_, ?_, ?_, ?_, ?_, ?_⟩
  · intro h; simp [tryStart, h]
  · intro h
    by_cases hg : is_generating g agent priv uid
    · simp [tryStart, hg] at h
    · simp only [tryStart, hg, if_false, Bool.false_eq_true]
      simp [isg_set_self]
  · intro hne hB
    by_cases hA : is_generating g agent true uidA
    · simp [tryStart, hA, hB]
    · simp only [tryStart, hA, if_false, Bool.false_eq_true]
      rw [isg_set_other_uid g agent uidA uidB true (fun h => hne h.symm)]
      simp [hB]
  · intro hP
    by_cases hA : is_generating g agent true uidA
    · simp [tryStart, hA, hP]
    · simp only [tryStart, hA, if_false, Bool.false_eq_true]
      rw [isg_set_pub_of_priv]
      simp [hP]
  · intro hA
    by_cases hP : is_generating g agent false uid
    · simp [tryStart, hP, hA]
    · simp only [tryStart, hP, if_false, Bool.false_eq_true]
      rw [isg_set_priv_of_pub]
      simp [hA]
  · simpa using isg_set_self g agent uid priv false
  · cases g with
    | mk pub pm =>
      cases priv
      · simp only [finish, set_generating, Bool.false_eq_true, if_false]
        congr 1
        funext x
        by_cases hx : x = agent <;> simp [hx]
      · simp only [finish, set_generating, if_true]
        congr 1
        funext x
        by_cases hx : x = agent
        · simp only [hx, if_true, Option.getD_some, Option.some.injEq]
          funext u'
          by_cases hu : u' = uid <;> simp [hu]
        · simp [hx]

/-- C2 witness: concrete run of the tracker from the empty state. -/
theorem C2_generating_tracker_witness :
    (("a" : String) ≠ "b" ∧ is_generating GeneratingState.empty "Bot" true "b" = false)
  ∧ (tryStart (tryStart GeneratingState.empty "Bot" true "a").1 "Bot" true "b").2 = true :=
  ⟨⟨by decide, by decide⟩,
    (C2_generating_tracker GeneratingState.empty "Bot" "x" "a" "b" true).2.2.1
      (by decide) (by decide)⟩

/-! ## Claim theorems: parse_create totality (C3) -/

/-- C3: the create parser is not total — on a full-width creation prefix
`＃＃` and on full-width parentheses around the description it slices the
raw string at byte offsets computed on the normalized string, off a
character boundary, which panics in the Rust code; an ordinary ASCII create
command still parses. -/
theorem C3_parse_create_panics :
    parse_create ("＃＃x".data) = Except.error ()
  ∧ parse_create ("##a（x）".data) = Except.error ()
  ∧ parse_create ("##Bot(helper) gpt-4o Hi".data)
      = Except.ok (some ("Bot".data, "helper".data, "gpt-4o".data, "Hi".data)) :=
  ⟨rfl, rfl, rfl⟩

/-! ## Claim theorems: rename suffix (C4) -/

/-- C4: the input `Bot~=New` with registered persona `Bot` parses to
Regenerate with argument `=New`, not to Rename with argument `New` — the
Regenerate rule excludes only `~#` and `~$` suffixes, so `~=` never reaches
the Rename rule. -/
theorem C4_rename_shadowed_by_regenerate :
    parse_agent_cmd ("Bot~=New".data) ["Bot".data]
      = some ⟨"Bot".data, Action.Regenerate, "=New".data, [], false, false⟩
  ∧ (parse_suffix ("~=New".data) ("~=New".data) false).1 = Action.Regenerate := by
  constructor
  · decide
  · decide

/-! ## Helper lemmas about modifyIdx (for C9) -/

theorem modifyIdx_length (f : ChatMessage → ChatMessage) :
    ∀ (n : Nat) (l : List ChatMessage), (modifyIdx f n l).length = l.length := by
  intro n l
  induction l generalizing n with
  | nil => cases n <;> simp [modifyIdx]
  | cons a t ih => cases n <;> simp [modifyIdx, ih]

theorem modifyIdx_get_ne (f : ChatMessage → ChatMessage) :
    ∀ (n : Nat) (l : List ChatMessage) (j : Nat), j ≠ n →
      (modifyIdx f n l)[j]? = l[j]? := by
  intro n l
  induction l generalizing n with
  | nil => intro j _; cases n <;> simp [modifyIdx]
  | cons a t ih =>
    intro j hj
    cases n with
    | zero =>
      cases j with
      | zero => exact absurd rfl hj
      | succ j' => simp [modifyIdx]
    | succ n' =>
      cases j with
      | zero => simp [modifyIdx]
      | succ j' =>
        simp only [modifyIdx, List.getElem?_cons_succ]
        exact ih n' j' (fun h => hj (by omega))

theorem modifyIdx_get_eq (f : ChatMessage → ChatMessage) :
    ∀ (n : Nat) (l : List ChatMessage) (m : ChatMessage), l[n]? = some m →
      (modifyIdx f n l)[n]? = some (f m) := by
  intro n l
  induction l generalizing n with
  | nil => intro m h; simp at h
  | cons a t ih =>
    intro m h
    cases n with
    | zero => simp_all [modifyIdx]
    | succ n' =>
      simp only [modifyIdx, List.getElem?_cons_succ] at h ⊢
      exact ih n' m h

/-! ## Claim theorems: edit_at (C9) -/

/-- C9: edit_at succeeds exactly when the 1-based index is in range; on
success only the content field of the addressed entry changes and every
other position is untouched; on failure the history is returned exactly
unchanged. -/
theorem C9_edit_at (h : List ChatMessage) (idx : Nat) (c : String) :
    ((edit_at h idx c).2 = true ↔ 1 ≤ idx ∧ idx ≤ h.length)
  ∧ (edit_at h idx c).1.length = h.length
  ∧ (∀ j, j ≠ idx - 1 → (edit_at h idx c).1[j]? = h[j]?)
  ∧ ((edit_at h idx c).2 = true → ∀ m, h[idx - 1]? = some m →
      (edit_at h idx c).1[idx - 1]? = some { m with content := c })
  ∧ ((edit_at h idx c).2 = false → (edit_at h idx c).1 = h) := by
  by_cases hin : 1 ≤ idx ∧ idx ≤ h.length
  · refine ⟨by simp [edit_at, hin], ?_, ?_, ?_, ?_⟩
    · simp [edit_at, hin, modifyIdx_length]
    · intro j hj
      simp only [edit_at, hin, if_pos]
      exact modifyIdx_get_ne _ _ _ _ hj
    · intro _ m hm
      simp only [edit_at, hin, if_pos]
      exact modifyIdx_get_eq _ _ _ _ hm
    · intro hfail
      simp [edit_at, hin] at hfail
  · refine ⟨by simp [edit_at, hin], ?_, ?_, ?_, ?_⟩
    · simp [edit_at, hin]
    · intro j _; simp [edit_at, hin]
    · intro hsucc; simp [edit_at, hin] at hsucc
    · intro _; simp [edit_at, hin]

/-- C9 witness: a concrete in-range edit and a concrete out-of-range edit. -/
theorem C9_edit_at_witness :
    ((edit_at [ChatMessage.new "user" "hi" []] 1 "new").2 = true
      ∧ (edit_at [ChatMessage.new "user" "hi" []] 1 "new").1[0]?
          = some { ChatMessage.new "user" "hi" [] with content := "new" })
  ∧ ((edit_at [ChatMessage.new "user" "hi" []] 5 "new").2 = false
      ∧ (edit_at [ChatMessage.new "user" "hi" []] 5 "new").1
          = [ChatMessage.new "user" "hi" []]) := by
  have h1 := C9_edit_at [ChatMessage.new "user" "hi" []] 1 "new"
  have h5 := C9_edit_at [ChatMessage.new "user" "hi" []] 5 "new"
  exact ⟨⟨h1.1.mpr (by decide), h1.2.2.2.1 (h1.1.mpr (by decide)) _ (by decide)⟩,
    by decide, h5.2.2.2.2 (by decide)⟩

/-! ## Helper lemmas for delete_at (C8) and parse_indices (C7) -/

theorem mem_dedupConsec : ∀ (l : List Nat) (a : Nat), a ∈ dedupConsec l ↔ a ∈ l := by
  intro l
  induction l with
  | nil => simp [dedupConsec]
  | cons x t ih =>
    cases t with
    | nil => simp [dedupConsec]
    | cons y t' =>
      intro a
      by_cases hxy : x = y
      · subst hxy
        simp only [dedupConsec, eq_self_iff_true, if_true]
        rw [ih a]
        simp
      · simp only [dedupConsec, if_neg hxy, List.mem_cons]
        rw [ih a]
        simp [List.mem_cons]

theorem dedupConsec_sorted_ge :
    ∀ (l : List Nat), l.Sorted (fun a b => b ≤ a) →
      (dedupConsec l).Sorted (fun a b => b < a) := by
  intro l
  induction l with
  | nil => intro _; simp [dedupConsec]
  | cons x t ih =>
    cases t with
    | nil => intro _; simp [dedupConsec]
    | cons y t' =>
      intro hs
      have hxt := (List.sorted_cons.mp hs).1
      have ht := (List.sorted_cons.mp hs).2
      by_cases hxy : x = y
      · subst hxy
        simp only [dedupConsec, eq_self_iff_true, if_true]
        exact ih ht
      · simp only [dedupConsec, if_neg hxy]
        rw [List.sorted_cons]
        refine ⟨?_, ih ht⟩
        intro b hb
        have hby : b ∈ y :: t' := (mem_dedupConsec _ _).mp hb
        have hylex : y ≤ x := hxt y (List.mem_cons_self _ _)
        have hyltx : y < x := lt_of_le_of_ne hylex (fun h => hxy h.symm)
        have hbley : b ≤ y := by
          rcases List.mem_cons.mp hby with rfl | hbt
          · exact le_refl b
          · exact (List.sorted_cons.mp ht).1 b hbt
        omega

theorem dedupConsec_sorted_le :
    ∀ (l : List Nat), l.Sorted (fun a b => a ≤ b) →
      (dedupConsec l).Sorted (fun a b => a < b) := by
  intro l
  induction l with
  | nil => intro _; simp [dedupConsec]
  | cons x t ih =>
    cases t with
    | nil => intro _; simp [dedupConsec]
    | cons y t' =>
      intro hs
      have hxt := (List.sorted_cons.mp hs).1
      have ht := (List.sorted_cons.mp hs).2
      by_cases hxy : x = y
      · subst hxy
        simp only [dedupConsec, eq_self_iff_true, if_true]
        exact ih ht
      · simp only [dedupConsec, if_neg hxy]
        rw [List.sorted_cons]
        refine ⟨?_, ih ht⟩
        intro b hb
        have hby : b ∈ y :: t' := (mem_dedupConsec _ _).mp hb
        have hylex : x ≤ y := hxt y (List.mem_cons_self _ _)
        have hyltx : x < y := lt_of_le_of_ne hylex hxy
        have hbley : y ≤ b := by
          rcases List.mem_cons.mp hby with rfl | hbt
          · exact le_refl b
          · exact (List.sorted_cons.mp ht).1 b hbt
        omega

theorem dropPositions_past {α : Type} (ds : List Nat) :
    ∀ (h : List α) (k : Nat), (∀ j ∈ ds, j < k) → dropPositions ds k h = h := by
  intro h
  induction h with
  | nil => intro k _; rfl
  | cons a t ih =>
    intro k hj
    have hk : k ∉ ds := fun hk => absurd (hj k hk) (lt_irrefl k)
    simp only [dropPositions, if_neg hk]
    exact congrArg (a :: ·) (ih (k + 1) (fun j hjm => Nat.lt_succ_of_lt (hj j hjm)))

theorem dropPositions_congr {α : Type} (ds ds' : List Nat)
    (hm : ∀ x, x ∈ ds ↔ x ∈ ds') :
    ∀ (h : List α) (k : Nat), dropPositions ds k h = dropPositions ds' k h := by
  intro h
  induction h with
  | nil => intro _; rfl
  | cons a t ih =>
    intro k
    by_cases hk : k ∈ ds
    · simp only [dropPositions, if_pos hk, if_pos ((hm k).mp hk)]
      exact ih (k + 1)
    · simp only [dropPositions, if_neg hk, if_neg (fun h => hk ((hm k).mpr h))]
      exact congrArg (a :: ·) (ih (k + 1))

theorem dropPositions_cons_out {α : Type} (i : Nat) (ds : List Nat) :
    ∀ (h : List α) (k : Nat), (i < k ∨ k + h.length ≤ i) →
      dropPositions (i :: ds) k h = dropPositions ds k h := by
  intro h
  induction h with
  | nil => intro _ _; rfl
  | cons a t ih =>
    intro k hk
    have hki : k ≠ i := by
      simp only [List.length_cons] at hk
      omega
    have hrec : i < k + 1 ∨ (k + 1) + t.length ≤ i := by
      simp only [List.length_cons] at hk
      omega
    by_cases hkd : k ∈ ds
    · have hkin : k ∈ i :: ds := List.mem_cons_of_mem _ hkd
      simp only [dropPositions, if_pos hkin, if_pos hkd]
      exact ih (k + 1) hrec
    · have hkin : k ∉ i :: ds := by simp [List.mem_cons, hki, hkd]
      simp only [dropPositions, if_neg hkin, if_neg hkd]
      exact congrArg (a :: ·) (ih (k + 1) hrec)

theorem dropPositions_erase (i : Nat) (rest : List Nat)
    (hrest : ∀ j ∈ rest, j < i) {α : Type} :
    ∀ (h : List α) (k : Nat), k ≤ i →
      dropPositions (i :: rest) k h = dropPositions rest k (h.eraseIdx (i - k)) := by
  intro h
  induction h with
  | nil => intro k _; cases (i - k) <;> rfl
  | cons a t ih =>
    intro k hk
    by_cases hki : k = i
    · subst hki
      have h1 : k ∈ k :: rest := List.mem_cons_self _ _
      simp only [dropPositions, if_pos h1, Nat.sub_self]
      rw [dropPositions_past (k :: rest) t (k + 1) ?later]
      case later =>
        intro j hj
        rcases List.mem_cons.mp hj with rfl | hjr
        · omega
        · have := hrest j hjr; omega
      show t = dropPositions rest k ((a :: t).eraseIdx 0)
      rw [show (a :: t).eraseIdx 0 = t from rfl]
      rw [dropPositions_past rest t k (fun j hj => hrest j hj)]
    · have hklt : k < i := lt_of_le_of_ne hk hki
      have herase : (a :: t).eraseIdx (i - k) = a :: t.eraseIdx (i - (k + 1)) := by
        have h2 : i - k = (i - (k + 1)) + 1 := by omega
        rw [h2]
        rfl
      rw [herase]
      by_cases hkr : k ∈ rest
      · have hkin : k ∈ i :: rest := List.mem_cons_of_mem _ hkr
        simp only [dropPositions, if_pos hkin, if_pos hkr]
        exact ih (k + 1) (by omega)
      · have hkin : k ∉ i :: rest := by simp [List.mem_cons, hki, hkr]
        simp only [dropPositions, if_neg hkin, if_neg hkr]
        exact congrArg (a :: ·) (ih (k + 1) (by omega))

theorem delLoop_spec {α : Type} :
    ∀ (ds : List Nat), ds.Sorted (fun a b => b < a) → ∀ (h : List α),
      delLoop h ds =
        (dropPositions ds 1 h,
         ds.filter (fun i => decide (1 ≤ i ∧ i ≤ h.length))) := by
  intro ds
  induction ds with
  | nil =>
    intro _ h
    simp only [delLoop, List.filter_nil]
    rw [dropPositions_past [] h 1 (by simp)]
  | cons i rest ih =>
    intro hs h
    have hd : ∀ j ∈ rest, j < i := (List.sorted_cons.mp hs).1
    have ht := (List.sorted_cons.mp hs).2
    by_cases hin : 1 ≤ i ∧ i ≤ h.length
    · simp only [delLoop, if_pos hin]
      rw [ih ht (h.eraseIdx (i - 1))]
      simp only [Prod.mk.injEq]
      constructor
      · exact (dropPositions_erase i rest hd h 1 hin.1).symm
      · have hpi : (decide (1 ≤ i ∧ i ≤ h.length)) = true := by simp [hin]
        rw [List.filter_cons, if_pos hpi]
        refine congrArg (i :: ·) (List.filter_congr ?_)
        intro j hj
        have hji := hd j hj
        have hlen : (h.eraseIdx (i - 1)).length = h.length - 1 := by
          rw [List.length_eraseIdx]
          have : i - 1 < h.length := by omega
          simp [this]
        rw [hlen]
        have hiff : (1 ≤ j ∧ j ≤ h.length - 1) ↔ (1 ≤ j ∧ j ≤ h.length) := by omega
        exact decide_eq_decide.mpr hiff
    · simp only [delLoop, if_neg hin]
      rw [ih ht h]
      simp only [Prod.mk.injEq]
      constructor
      · refine (dropPositions_cons_out i rest h 1 ?_).symm
        omega
      · rw [List.filter_cons]
        simp [hin]

/-! ## Claim theorems: delete_at (C8) -/

/-- C8: delete_at removes exactly the in-range entries at the given
original 1-based positions (survivors keep their order), ignores
out-of-range and duplicate indices, and returns the ascending list of
positions actually removed; the claim example on a 4-element history. -/
theorem C8_delete_at :
    (∀ (α : Type) (h : List α) (indices : List Nat),
        (delete_at h indices).1 = dropPositions indices 1 h
      ∧ ((delete_at h indices).2).Sorted (fun a b : Nat => a < b)
      ∧ (∀ i, i ∈ (delete_at h indices).2 ↔ i ∈ indices ∧ 1 ≤ i ∧ i ≤ h.length))
  ∧ delete_at [10, 20, 30, 40] [2, 4] = ([10, 30], [2, 4]) := by
  constructor
  · intro α h indices
    have hsort : (List.insertionSort rGe indices).Sorted rGe :=
      List.sorted_insertionSort rGe indices
    have hds : (dedupConsec (List.insertionSort rGe indices)).Sorted
        (fun a b => b < a) := dedupConsec_sorted_ge _ hsort
    have hmem : ∀ x, x ∈ dedupConsec (List.insertionSort rGe indices) ↔ x ∈ indices :=
      fun x => (mem_dedupConsec _ x).trans (List.perm_insertionSort rGe indices).mem_iff
    have hloop := delLoop_spec (dedupConsec (List.insertionSort rGe indices)) hds h
    refine ⟨?_, ?_, ?_⟩
    · show (delLoop h (dedupConsec (List.insertionSort rGe indices))).1 = _
      rw [hloop]
      exact dropPositions_congr _ _ hmem h 1
    · show ((delLoop h (dedupConsec (List.insertionSort rGe indices))).2.reverse).Sorted _
      rw [hloop]
      rw [List.Sorted, List.pairwise_reverse]
      exact (hds.filter _)
    · intro i
      show i ∈ (delLoop h (dedupConsec (List.insertionSort rGe indices))).2.reverse ↔ _
      rw [hloop]
      simp only [List.mem_reverse, List.mem_filter, hmem, decide_eq_true_eq]
  · decide

/-- C8 witness: concrete instance of the general delete_at description. -/
theorem C8_delete_at_witness :
    (delete_at [5, 6, 7] [3, 3, 9]).1 = dropPositions [3, 3, 9] 1 [5, 6, 7]
    ∧ ∀ i, i ∈ (delete_at [5, 6, 7] [3, 3, 9]).2 ↔
        i ∈ [3, 3, 9] ∧ 1 ≤ i ∧ i ≤ 3 :=
  ⟨(C8_delete_at.1 Nat [5, 6, 7] [3, 3, 9]).1,
   (C8_delete_at.1 Nat [5, 6, 7] [3, 3, 9]).2.2⟩

/-! ## Helper lemmas for the index-resolver equivalence (C7) -/

theorem takeWhile_append_all (p : Char → Bool) :
    ∀ (l1 l2 : List Char), (∀ c ∈ l1, p c = true) →
      (l1 ++ l2).takeWhile p = l1 ++ l2.takeWhile p := by
  intro l1 l2
  induction l1 with
  | nil => intro _; simp
  | cons c t ih =>
    intro h
    have hc := h c (List.mem_cons_self _ _)
    simp only [List.cons_append, List.takeWhile_cons, hc]
    rw [ih (fun x hx => h x (List.mem_cons_of_mem _ hx))]
    rfl

theorem dropWhile_append_all (p : Char → Bool) :
    ∀ (l1 l2 : List Char), (∀ c ∈ l1, p c = true) →
      (l1 ++ l2).dropWhile p = l2.dropWhile p := by
  intro l1 l2
  induction l1 with
  | nil => intro _; simp
  | cons c t ih =>
    intro h
    have hc := h c (List.mem_cons_self _ _)
    simp only [List.cons_append, List.dropWhile_cons, hc]
    exact ih (fun x hx => h x (List.mem_cons_of_mem _ hx))

theorem mem_takeWhile_q (p : Char → Bool) :
    ∀ (s : List Char) (c : Char), c ∈ s.takeWhile p → p c = true := by
  intro s
  induction s with
  | nil => intro c h; simp at h
  | cons a t ih =>
    intro c h
    by_cases ha : p a
    · rw [List.takeWhile_cons, if_pos ha] at h
      rcases List.mem_cons.mp h with rfl | ht
      · exact ha
      · exact ih c ht
    · rw [List.takeWhile_cons, if_neg ha] at h
      simp at h

theorem dropWhile_head_false (p : Char → Bool) :
    ∀ (s : List Char) (c : Char) (r : List Char),
      s.dropWhile p = c :: r → p c = false := by
  intro s
  induction s with
  | nil => intro c r h; simp at h
  | cons a t ih =>
    intro c r h
    by_cases ha : p a
    · rw [List.dropWhile_cons, if_pos ha] at h
      exact ih c r h
    · rw [List.dropWhile_cons, if_neg ha] at h
      cases h
      exact Bool.eq_false_iff.mpr ha

theorem scanGo_first_digits :
    ∀ (ds : List Char), (∀ c ∈ ds, isDigitC c = true) →
      ∀ (n : Nat) (rest : List Char),
        scanGo (.first n) (ds ++ rest) =
          scanGo (.first (ds.foldl (fun m c => m * 10 + (c.toNat - 48)) n)) rest := by
  intro ds
  induction ds with
  | nil => intro _ n rest; rfl
  | cons d t ih =>
    intro h n rest
    have hd := h d (List.mem_cons_self _ _)
    simp only [List.cons_append, scanGo, hd, if_true, List.foldl_cons]
    exact ih (fun x hx => h x (List.mem_cons_of_mem _ hx)) _ rest

theorem scanGo_second_digits :
    ∀ (ds : List Char), (∀ c ∈ ds, isDigitC c = true) →
      ∀ (a b : Nat) (rest : List Char),
        scanGo (.second a b) (ds ++ rest) =
          scanGo (.second a (ds.foldl (fun m c => m * 10 + (c.toNat - 48)) b)) rest := by
  intro ds
  induction ds with
  | nil => intro _ a b rest; rfl
  | cons d t ih =>
    intro h a b rest
    have hd := h d (List.mem_cons_self _ _)
    simp only [List.cons_append, scanGo, hd, if_true, List.foldl_cons]
    exact ih (fun x hx => h x (List.mem_cons_of_mem _ hx)) _ _ rest

theorem natOfDigits_cons (d : Char) (ds : List Char) :
    natOfDigits (d :: ds) =
      ds.foldl (fun m c => m * 10 + (c.toNat - 48)) (d.toNat - 48) := by
  simp [natOfDigits]

theorem isDigitsNE_false_of_dash (t : List Char) (d : List Char)
    (hd : t.dropWhile isDigitC = '-' :: d) : isDigitsNE t = false := by
  have hmem : ('-' : Char) ∈ t := by
    have h1 : ('-' : Char) ∈ t.dropWhile isDigitC := by
      rw [hd]; exact List.mem_cons_self _ _
    exact (List.dropWhile_sublist isDigitC).subset h1
  have hall : t.all isDigitC = false := by
    cases hA : t.all isDigitC
    · rfl
    · have := List.all_eq_true.mp hA _ hmem
      exact absurd this (by decide)
  simp [isDigitsNE, hall]

theorem scan_tok (t rest : List Char) (hw : wellTok t = true)
    (hrest : rest = [] ∨ ∃ r', rest = ',' :: r') :
    scanGo .start (t ++ rest) = denoteTok t ++ scanGo .start rest := by
  unfold wellTok at hw
  cases h1 : isDigitsNE t with
  | true =>
    have hdig := h1
    -- bare digit token
    have hallb : t.all isDigitC = true := by
      simp only [isDigitsNE, Bool.and_eq_true] at hdig
      exact hdig.2
    have hne : t.isEmpty = false := by
      simp only [isDigitsNE, Bool.and_eq_true] at hdig
      simpa using hdig.1
    have hall : ∀ c ∈ t, isDigitC c = true :=
      fun c hc => List.all_eq_true.mp hallb c hc
    rcases t with _ | ⟨d, ds⟩
    · simp at hne
    · have hd0 := hall d (List.mem_cons_self _ _)
      have hds : ∀ c ∈ ds, isDigitC c = true :=
        fun c hc => hall c (List.mem_cons_of_mem _ hc)
      have hden : denoteTok (d :: ds) = [natOfDigits (d :: ds)] := by
        simp [denoteTok, hdig]
      rw [hden]
      show scanGo .start (d :: (ds ++ rest)) = _
      have step1 : scanGo .start (d :: (ds ++ rest)) =
          scanGo (.first (d.toNat - 48)) (ds ++ rest) := by
        simp [scanGo, hd0]
      rw [step1, scanGo_first_digits ds hds _ rest, ← natOfDigits_cons]
      rcases hrest with rfl | ⟨r', rfl⟩
      · rfl
      · rfl
  | false =>
    rw [h1] at hw
    simp only [Bool.false_or, Bool.and_eq_true] at hw
    obtain ⟨hane, hmatch⟩ := hw
    have hane' : (t.takeWhile isDigitC).isEmpty = false := by simpa using hane
    rcases hdrop : t.dropWhile isDigitC with _ | ⟨c0, dd⟩
    · rw [hdrop] at hmatch; simp at hmatch
    · rw [hdrop] at hmatch
      by_cases hdash : c0 = '-'
      · subst hdash
        -- t = a ++ '-' :: dd with a nonempty digits, dd nonempty digits
        have hdd : isDigitsNE dd = true := hmatch
        have hddne : dd.isEmpty = false := by
          simp only [isDigitsNE, Bool.and_eq_true] at hdd
          simpa using hdd.1
        have hddall : ∀ c ∈ dd, isDigitC c = true := by
          simp only [isDigitsNE, Bool.and_eq_true] at hdd
          exact fun c hc => List.all_eq_true.mp hdd.2 c hc
        have hsplit : t = t.takeWhile isDigitC ++ '-' :: dd := by
          conv_lhs => rw [← List.takeWhile_append_dropWhile (p := isDigitC) (l := t)]
          rw [hdrop]
        have haall : ∀ c ∈ t.takeWhile isDigitC, isDigitC c = true :=
          fun c hc => mem_takeWhile_q isDigitC t c hc
        rcases ha : t.takeWhile isDigitC with _ | ⟨a0, as⟩
        · rw [ha] at hane'; simp at hane'
        · rcases hddc : dd with _ | ⟨e0, es⟩
          · rw [hddc] at hddne; simp at hddne
          · have ha0 : isDigitC a0 = true := by
              rw [ha] at haall; exact haall a0 (List.mem_cons_self _ _)
            have has : ∀ c ∈ as, isDigitC c = true := by
              rw [ha] at haall
              exact fun c hc => haall c (List.mem_cons_of_mem _ hc)
            have he0 : isDigitC e0 = true := by
              rw [hddc] at hddall; exact hddall e0 (List.mem_cons_self _ _)
            have hes : ∀ c ∈ es, isDigitC c = true := by
              rw [hddc] at hddall
              exact fun c hc => hddall c (List.mem_cons_of_mem _ hc)
            have hden : denoteTok t =
                rangeIncl (natOfDigits (a0 :: as)) (natOfDigits (e0 :: es)) := by
              rw [denoteTok, isDigitsNE_false_of_dash t dd hdrop]
              simp only [Bool.false_eq_true, if_false]
              rw [hdrop, hddc, ha]
              rfl
            have harg : t ++ rest = (a0 :: as) ++ ('-' :: ((e0 :: es) ++ rest)) := by
              conv_lhs => rw [hsplit, ha, hddc]
              simp [List.append_assoc]
            rw [harg, hden]
            have step1 : scanGo .start ((a0 :: as) ++ ('-' :: ((e0 :: es) ++ rest))) =
                scanGo (.first (a0.toNat - 48)) (as ++ ('-' :: ((e0 :: es) ++ rest))) := by
              simp [scanGo, ha0]
            rw [step1, scanGo_first_digits as has _ _, ← natOfDigits_cons]
            have step2 : scanGo (.first (natOfDigits (a0 :: as)))
                ('-' :: ((e0 :: es) ++ rest)) =
                scanGo (.dash (natOfDigits (a0 :: as))) ((e0 :: es) ++ rest) := by
              simp [scanGo, isDigitC]
            rw [step2]
            have step3 : scanGo (.dash (natOfDigits (a0 :: as))) ((e0 :: es) ++ rest) =
                scanGo (.second (natOfDigits (a0 :: as)) (e0.toNat - 48)) (es ++ rest) := by
              show scanGo (.dash _) (e0 :: (es ++ rest)) = _
              simp [scanGo, he0]
            rw [step3, scanGo_second_digits es hes _ _ rest, ← natOfDigits_cons]
            rcases hrest with rfl | ⟨r', rfl⟩
            · simp [scanGo, scanFlush]
            · rfl
      · exfalso
        have hm2 : (if c0 = '-' then isDigitsNE dd else false) = true := hmatch
        rw [if_neg hdash] at hm2
        simp at hm2

theorem splitOnChar_no_sep :
    ∀ (s : List Char), (∀ c ∈ s, c ≠ ',') → splitOnChar ',' s = [s] := by
  intro s
  induction s with
  | nil => intro _; rfl
  | cons c rest ih =>
    intro h
    have hc : ¬ c = ',' := h c (List.mem_cons_self _ _)
    simp only [splitOnChar, if_neg hc]
    rw [ih (fun x hx => h x (List.mem_cons_of_mem _ hx))]

theorem splitOnChar_append_sep :
    ∀ (t r : List Char), (∀ c ∈ t, c ≠ ',') →
      splitOnChar ',' (t ++ ',' :: r) = t :: splitOnChar ',' r := by
  intro t r
  induction t with
  | nil =>
    intro _
    show splitOnChar ',' (',' :: r) = [] :: splitOnChar ',' r
    simp [splitOnChar]
  | cons c rest ih =>
    intro h
    have hc : ¬ c = ',' := h c (List.mem_cons_self _ _)
    simp only [List.cons_append, splitOnChar, if_neg hc, List.append_eq]
    rw [ih (fun x hx => h x (List.mem_cons_of_mem _ hx))]

theorem scan_split :
    ∀ (n : Nat) (s : List Char), s.length ≤ n →
      (∀ t ∈ splitOnChar ',' s, wellTok t = true) →
      scanGo .start s = (splitOnChar ',' s).flatMap denoteTok := by
  intro n
  induction n with
  | zero =>
    intro s hl _
    have : s = [] := List.length_eq_zero.mp (Nat.le_zero.mp hl)
    subst this
    rfl
  | succ n ih =>
    intro s hl hw
    cases hdrop : s.dropWhile (fun c => !(c == ',')) with
    | nil =>
      have hnc : ∀ c ∈ s, c ≠ ',' := by
        intro c hc hcc
        have hs : s = s.takeWhile (fun c => !(c == ',')) := by
          conv_lhs => rw [← List.takeWhile_append_dropWhile
            (p := fun c => !(c == ',')) (l := s)]
          rw [hdrop, List.append_nil]
        rw [hs] at hc
        have := mem_takeWhile_q _ s c hc
        rw [hcc] at this
        simp at this
      rw [splitOnChar_no_sep s hnc]
      have := scan_tok s [] (hw s (by rw [splitOnChar_no_sep s hnc]; exact List.mem_cons_self _ _)) (Or.inl rfl)
      rw [List.append_nil] at this
      rw [this]
      rfl
    | cons c r =>
      have hc : c = ',' := by
        have := dropWhile_head_false _ s c r hdrop
        simpa using this
      subst hc
      have hs : s = s.takeWhile (fun c => !(c == ',')) ++ ',' :: r := by
        conv_lhs => rw [← List.takeWhile_append_dropWhile
          (p := fun c => !(c == ',')) (l := s)]
        rw [hdrop]
      have htknc : ∀ c ∈ s.takeWhile (fun c => !(c == ',')), c ≠ ',' := by
        intro c hc hcc
        have := mem_takeWhile_q _ s c hc
        rw [hcc] at this
        simp at this
      have hsplit : splitOnChar ',' s =
          s.takeWhile (fun c => !(c == ',')) :: splitOnChar ',' r := by
        conv_lhs => rw [hs]
        exact splitOnChar_append_sep _ r htknc
      have hrlen : r.length ≤ n := by
        have : s.length = (s.takeWhile (fun c => !(c == ','))).length + 1 + r.length := by
          conv_lhs => rw [hs]
          simp
          omega
        omega
      have hwtok : wellTok (s.takeWhile (fun c => !(c == ','))) = true := by
        apply hw
        rw [hsplit]
        exact List.mem_cons_self _ _
      have hwr : ∀ t ∈ splitOnChar ',' r, wellTok t = true := by
        intro t ht
        exact hw t (by rw [hsplit]; exact List.mem_cons_of_mem _ ht)
      conv_lhs => rw [hs]
      rw [scan_tok _ (',' :: r) hwtok (Or.inr ⟨r, rfl⟩)]
      have hcomma : scanGo .start (',' :: r) = scanGo .start r := rfl
      rw [hcomma, ih r hrlen hwr, hsplit]
      rfl

/-! ## Claim theorems: parse_indices (C7) -/

/-- C7 counterexample: on `1x2` the comma-separated token `1x2` denotes
nothing under the claim grammar (the spec-side resolver yields `[]`), but
the implementation extracts both digit runs and returns `[1, 2]`. -/
theorem C7_counterexample :
    parse_indices ("1x2".data) = [1, 2] ∧ specIndices ("1x2".data) = [] := by
  constructor <;> decide

/-- C7 (amended): on every input whose comma-separated tokens are each a
bare digit run or a `digits-digits` range, the resolver returns exactly
the sorted deduplicated ascending list of the denoted integers (reversed
ranges denote nothing); on arbitrary input the result is always strictly
ascending; and the three claim examples hold. -/
theorem C7_parse_indices :
    (∀ s : List Char, (∀ t ∈ splitCommas s, wellTok t = true) →
        parse_indices s = specIndices s)
  ∧ (∀ s : List Char, (parse_indices s).Sorted (fun a b : Nat => a < b))
  ∧ parse_indices ("1,3,5".data) = [1, 3, 5]
  ∧ parse_indices ("1-3".data) = [1, 2, 3]
  ∧ parse_indices ("3-1".data) = [] := by
  refine ⟨?_, ?_, by decide, by decide, by decide⟩
  · intro s hw
    have heq := scan_split (replComma s).length (replComma s) (le_refl _) hw
    unfold parse_indices specIndices splitCommas
    rw [scanIdx, heq]
  · intro s
    exact dedupConsec_sorted_le _ (List.sorted_insertionSort _ _)

/-- C7 witness: a concrete well-formed index expression resolved through
the general equivalence. -/
theorem C7_parse_indices_witness :
    (∀ t ∈ splitCommas ("2,10,4-6".data), wellTok t = true)
    ∧ parse_indices ("2,10,4-6".data) = specIndices ("2,10,4-6".data) :=
  ⟨by decide, C7_parse_indices.1 _ (by decide)⟩

/-! ## Helper lemmas for parse_agent_cmd (C6) -/

theorem modeScan_spec : ∀ (l : List Char) (p t : Bool),
    (∀ ch ∈ l.take (modeScan l p t).1, ch = '&' ∨ ch = '"')
  ∧ ((modeScan l p t).2.1 = (p || (l.take (modeScan l p t).1).contains '&'))
  ∧ ((modeScan l p t).2.2 = (t || (l.take (modeScan l p t).1).contains '"'))
  ∧ (∀ ch, l[(modeScan l p t).1]? = some ch → ¬(ch = '&' ∨ ch = '"')) := by
  intro l
  induction l with
  | nil =>
    intro p t
    exact ⟨by simp [modeScan], by simp [modeScan], by simp [modeScan], by simp [modeScan]⟩
  | cons c rest ih =>
    intro p t
    by_cases hc1 : c = '&'
    · subst hc1
      have ihs := ih true t
      have hms : modeScan ('&' :: rest) p t =
          ((modeScan rest true t).1 + 1, (modeScan rest true t).2) := by
        simp [modeScan]
      refine ⟨?_, ?_, ?_, ?_⟩
      · intro ch hch
        rw [hms, List.take_succ_cons] at hch
        rcases List.mem_cons.mp hch with rfl | hcht
        · exact Or.inl rfl
        · exact ihs.1 ch hcht
      · rw [hms]
        simp only [List.take_succ_cons, List.contains_cons]
        rw [ihs.2.1]
        simp
      · rw [hms]
        simp only [List.take_succ_cons, List.contains_cons]
        rw [ihs.2.2.1]
        simp [show (('"' : Char) == '&') = false from by decide]
      · intro ch hch
        rw [hms] at hch
        simp only [List.getElem?_cons_succ] at hch
        exact ihs.2.2.2 ch hch
    · by_cases hc2 : c = '"'
      · subst hc2
        have ihs := ih p true
        have hms : modeScan ('"' :: rest) p t =
            ((modeScan rest p true).1 + 1, (modeScan rest p true).2) := by
          simp [modeScan]
        refine ⟨?_, ?_, ?_, ?_⟩
        · intro ch hch
          rw [hms, List.take_succ_cons] at hch
          rcases List.mem_cons.mp hch with rfl | hcht
          · exact Or.inr rfl
          · exact ihs.1 ch hcht
        · rw [hms]
          simp only [List.take_succ_cons, List.contains_cons]
          rw [ihs.2.1]
          simp [show (('&' : Char) == '"') = false from by decide]
        · rw [hms]
          simp only [List.take_succ_cons, List.contains_cons]
          rw [ihs.2.2.1]
          simp
        · intro ch hch
          rw [hms] at hch
          simp only [List.getElem?_cons_succ] at hch
          exact ihs.2.2.2 ch hch
      · have hms : modeScan (c :: rest) p t = (0, p, t) := by
          simp [modeScan, hc1, hc2]
        refine ⟨?_, ?_, ?_, ?_⟩
        · intro ch hch
          rw [hms] at hch
          simp at hch
        · rw [hms]; simp
        · rw [hms]; simp
        · intro ch hch
          rw [hms] at hch
          simp only [List.getElem?_cons_zero, Option.some.injEq] at hch
          subst hch
          rintro (rfl | rfl)
          · exact hc1 rfl
          · exact hc2 rfl

theorem find?_sorted_len_max :
    ∀ (l : List (List Char)), l.Sorted rLen →
      ∀ (p : List Char → Bool) (nm : List Char), l.find? p = some nm →
        ∀ m ∈ l, p m = true → m.length ≤ nm.length := by
  intro l
  induction l with
  | nil => intro _ p nm h; simp at h
  | cons a t ih =>
    intro hl p nm h m hm hpm
    rcases List.sorted_cons.mp hl with ⟨hat, ht⟩
    by_cases hpa : p a
    · rw [List.find?_cons_of_pos _ hpa] at h
      injection h with h
      subst h
      rcases List.mem_cons.mp hm with rfl | hmt
      · exact le_refl _
      · exact hat m hmt
    · rw [List.find?_cons_of_neg _ hpa] at h
      rcases List.mem_cons.mp hm with rfl | hmt
      · rw [hpm] at hpa; exact absurd rfl hpa
      · exact ih ht p nm h m hmt hpm

/-! ## Claim theorems: parse_agent_cmd (C6) -/

/-- C6: the persona-command parser first consumes leading private and
text markers in any order (each setting its flag), then resolves the
longest registered persona name that is a case-insensitive prefix of the
remaining text (candidates in descending length order, no match meaning no
command); the end-to-end example `&"Bot/1-2` parses to a private,
text-mode ViewAt(Private) with indices `[1, 2]`. -/
theorem C6_parse_agent_cmd :
    (parse_agent_cmd ("&\"Bot/1-2".data) ["Bot".data] =
      some ⟨"Bot".data, Action.ViewAt Scope.Private, [], [1, 2], true, true⟩)
  ∧ (∀ (raw : List Char) (agents : List (List Char)) (c : Command),
       parse_agent_cmd raw agents = some c →
         c.agent ∈ agents
       ∧ (toLowerL c.agent).isPrefixOf (toLowerL (remAfterModes raw)) = true
       ∧ (∀ nm ∈ agents,
            (toLowerL nm).isPrefixOf (toLowerL (remAfterModes raw)) = true →
            nm.length ≤ c.agent.length)
       ∧ c.private_reply = (modeScan (normalize (trimL raw)) false false).2.1
       ∧ c.text_mode = (modeScan (normalize (trimL raw)) false false).2.2)
  ∧ (∀ (raw : List Char) (agents : List (List Char)),
       (∀ nm ∈ agents,
          (toLowerL nm).isPrefixOf (toLowerL (remAfterModes raw)) = false) →
       parse_agent_cmd raw agents = none)
  ∧ (∀ (l : List Char) (p t : Bool),
       (∀ ch ∈ l.take (modeScan l p t).1, ch = '&' ∨ ch = '"')
     ∧ ((modeScan l p t).2.1 = (p || (l.take (modeScan l p t).1).contains '&'))
     ∧ ((modeScan l p t).2.2 = (t || (l.take (modeScan l p t).1).contains '"'))
     ∧ (∀ ch, l[(modeScan l p t).1]? = some ch → ¬(ch = '&' ∨ ch = '"'))) := by
  refine ⟨by decide, ?_, ?_, fun l p t => modeScan_spec l p t⟩
  · intro raw agents c hp
    simp only [parse_agent_cmd] at hp
    by_cases hraw : trimL raw = []
    · rw [if_pos hraw] at hp
      exact Option.noConfusion hp
    · rw [if_neg hraw] at hp
      cases hfind : (List.insertionSort rLen agents).find? (fun nm =>
          (toLowerL nm).isPrefixOf
            (toLowerL ((normalize (trimL raw)).drop
              (modeScan (normalize (trimL raw)) false false).1))) with
      | none =>
        rw [hfind] at hp
        exact Option.noConfusion hp
      | some nm =>
        rw [hfind] at hp
        injection hp with hp
        subst hp
        refine ⟨?_, ?_, ?_, rfl, rfl⟩
        · exact (List.perm_insertionSort rLen agents).mem_iff.mp
            (List.mem_of_find?_eq_some hfind)
        · have := List.find?_some hfind
          simpa [remAfterModes] using this
        · intro m hm hpref
          refine find?_sorted_len_max _ (List.sorted_insertionSort rLen agents) _ _
            hfind m ((List.perm_insertionSort rLen agents).mem_iff.mpr hm) ?_
          simpa [remAfterModes] using hpref
  · intro raw agents hnone
    simp only [parse_agent_cmd]
    by_cases hraw : trimL raw = []
    · rw [if_pos hraw]
    · rw [if_neg hraw]
      have hfind : (List.insertionSort rLen agents).find? (fun nm =>
          (toLowerL nm).isPrefixOf
            (toLowerL ((normalize (trimL raw)).drop
              (modeScan (normalize (trimL raw)) false false).1))) = none := by
        rw [List.find?_eq_none]
        intro x hx
        have hxa : x ∈ agents := (List.perm_insertionSort rLen agents).mem_iff.mp hx
        have := hnone x hxa
        simp only [remAfterModes] at this
        simp [this]
      rw [hfind]

/-- C6 witness: the general description instantiated on a concrete parse
with two registered names of different lengths. -/
theorem C6_parse_agent_cmd_witness :
    (parse_agent_cmd ("BigBot hi".data) ["Bot".data, "BigBot".data] =
      some ⟨"BigBot".data, Action.Chat, "hi".data, [], false, false⟩)
    ∧ ∀ nm ∈ ["Bot".data, "BigBot".data],
        (toLowerL nm).isPrefixOf (toLowerL (remAfterModes ("BigBot hi".data))) = true →
        nm.length ≤ ("BigBot".data : List Char).length :=
  ⟨by decide, by
    have h := (C6_parse_agent_cmd.2.1 ("BigBot hi".data) ["Bot".data, "BigBot".data]
      ⟨"BigBot".data, Action.Chat, "hi".data, [], false, false⟩ (by decide))
    exact h.2.2.1⟩

/-! ## Helper lemmas about the registry (C1, C5, C10) -/

theorem withHistory_name (a : Agent) (priv : Bool) (uid : String)
    (f : List ChatMessage → List ChatMessage) :
    (withHistory a priv uid f).name = a.name := by
  unfold withHistory; split <;> rfl

theorem withHistory_gen (a : Agent) (priv : Bool) (uid : String)
    (f : List ChatMessage → List ChatMessage) :
    (withHistory a priv uid f).generation_id = a.generation_id := by
  unfold withHistory; split <;> rfl

theorem clear_history_name (a : Agent) (priv : Bool) (uid : String) :
    (a.clear_history priv uid).name = a.name := by
  unfold Agent.clear_history; split <;> rfl

theorem clear_history_gen (a : Agent) (priv : Bool) (uid : String) :
    (a.clear_history priv uid).generation_id = a.generation_id := by
  unfold Agent.clear_history; split <;> rfl

theorem find?_cons_pos (p : Agent → Bool) (a : Agent) (t : List Agent)
    (h : p a = true) : (a :: t).find? p = some a := by
  simp [List.find?, h]

theorem find?_cons_neg (p : Agent → Bool) (a : Agent) (t : List Agent)
    (h : p a = false) : (a :: t).find? p = t.find? p := by
  simp [List.find?, h]

theorem find?_updateAgentNamed :
    ∀ (l : List Agent) (nm name : String) (f : Agent → Agent),
      (∀ x, (f x).name = x.name) →
      (updateAgentNamed l nm f).find? (fun x => x.name == name)
        = (l.find? (fun x => x.name == name)).map
            (fun x => if x.name == nm then f x else x) := by
  intro l nm name f hf
  induction l with
  | nil => rfl
  | cons a t ih =>
    by_cases hanm : a.name = nm
    · have hb : (a.name == nm) = true := beq_iff_eq.mpr hanm
      simp only [updateAgentNamed, hb, if_true]
      by_cases haname : a.name = name
      · have hb2 : (a.name == name) = true := beq_iff_eq.mpr haname
        have hb2f : ((f a).name == name) = true := by rw [hf]; exact hb2
        rw [find?_cons_pos _ _ _ hb2f, find?_cons_pos _ _ _ hb2]
        simp [hanm]
      · have hb2 : (a.name == name) = false := beq_eq_false_iff_ne.mpr haname
        have hb2f : ((f a).name == name) = false := by rw [hf]; exact hb2
        rw [find?_cons_neg _ _ _ hb2f, find?_cons_neg _ _ _ hb2]
        cases hft : t.find? (fun x => x.name == name) with
        | none => rfl
        | some x =>
          have hx := List.find?_some hft
          have hxn : x.name = name := beq_iff_eq.mp hx
          have hnmne : x.name ≠ nm := by
            rw [hxn]
            intro hh
            exact haname (by rw [hanm, ← hh])
          simp [hnmne]
    · have hb : (a.name == nm) = false := beq_eq_false_iff_ne.mpr hanm
      simp only [updateAgentNamed, hb, Bool.false_eq_true, if_false]
      by_cases haname : a.name = name
      · have hb2 : (a.name == name) = true := beq_iff_eq.mpr haname
        rw [find?_cons_pos _ _ _ hb2, find?_cons_pos _ _ _ hb2]
        simp [hanm]
      · have hb2 : (a.name == name) = false := beq_eq_false_iff_ne.mpr haname
        rw [find?_cons_neg _ _ _ hb2, find?_cons_neg _ _ _ hb2]
        exact ih

theorem find?_map_names :
    ∀ (l : List Agent) (g : Agent → Agent) (name : String),
      (∀ x, (g x).name = x.name) →
      (l.map g).find? (fun x => x.name == name)
        = (l.find? (fun x => x.name == name)).map g := by
  intro l g name hg
  induction l with
  | nil => rfl
  | cons a t ih =>
    by_cases ha : a.name = name
    · have hb : (a.name == name) = true := beq_iff_eq.mpr ha
      have hbg : ((g a).name == name) = true := by rw [hg]; exact hb
      rw [List.map_cons, find?_cons_pos _ _ _ hbg, find?_cons_pos _ _ _ hb]
      rfl
    · have hb : (a.name == name) = false := beq_eq_false_iff_ne.mpr ha
      have hbg : ((g a).name == name) = false := by rw [hg]; exact hb
      rw [List.map_cons, find?_cons_neg _ _ _ hbg, find?_cons_neg _ _ _ hb]
      exact ih

theorem agentGen_update_self (c : Config) (name : String) (f : Agent → Agent) (a : Agent)
    (hf : ∀ x, (f x).name = x.name)
    (h : c.agents.find? (fun x => x.name == name) = some a) :
    agentGen { c with agents := updateAgentNamed c.agents name f } name
      = some ((f a).generation_id) := by
  unfold agentGen
  simp only
  rw [find?_updateAgentNamed _ _ _ _ hf, h]
  have hpa := List.find?_some h
  simp only at hpa
  simp [beq_iff_eq.mp hpa]

theorem agentGen_map_self (c : Config) (name : String) (g : Agent → Agent) (a : Agent)
    (hg : ∀ x, (g x).name = x.name)
    (h : c.agents.find? (fun x => x.name == name) = some a) :
    agentGen { c with agents := c.agents.map g } name = some ((g a).generation_id) := by
  unfold agentGen
  simp only
  rw [find?_map_names _ _ _ hg, h]
  rfl

theorem agentGen_update_ge (c : Config) (nm name : String) (f : Agent → Agent) (a : Agent)
    (hf : ∀ x, (f x).name = x.name)
    (hge : ∀ x, x.generation_id ≤ (f x).generation_id)
    (h : c.agents.find? (fun x => x.name == name) = some a) :
    ∀ n, agentGen { c with agents := updateAgentNamed c.agents nm f } name = some n →
      a.generation_id ≤ n := by
  intro n hn
  unfold agentGen at hn
  simp only at hn
  rw [find?_updateAgentNamed _ _ _ _ hf, h] at hn
  simp only [Option.map_some'] at hn
  injection hn with hn
  subst hn
  by_cases hcase : (a.name == nm) = true
  · simp only [hcase, if_true]
    exact hge a
  · simp only [hcase]
    simp

theorem updateAgentNamed_decomp (pre post : List Agent) (a : Agent) (name : String)
    (f : Agent → Agent)
    (hpre : ∀ b ∈ pre, b.name ≠ name) (ha : a.name = name) :
    updateAgentNamed (pre ++ a :: post) name f = pre ++ f a :: post := by
  induction pre with
  | nil =>
    simp only [List.nil_append, updateAgentNamed, beq_iff_eq.mpr ha, if_true]
  | cons b t ih =>
    have hb : (b.name == name) = false :=
      beq_eq_false_iff_ne.mpr (hpre b (List.mem_cons_self _ _))
    simp only [List.cons_append, updateAgentNamed, hb, Bool.false_eq_true, if_false,
      List.append_eq]
    rw [ih (fun x hx => hpre x (List.mem_cons_of_mem _ hx))]

theorem applyCreateUpdate_frame (model prompt desc : String) (a : Agent) :
    (applyCreateUpdate model prompt desc a).name = a.name
  ∧ (applyCreateUpdate model prompt desc a).public_history = a.public_history
  ∧ (applyCreateUpdate model prompt desc a).private_histories = a.private_histories
  ∧ (applyCreateUpdate model prompt desc a).generation_id = a.generation_id
  ∧ (applyCreateUpdate model prompt desc a).created_at = a.created_at
  ∧ (applyCreateUpdate model prompt desc a).system_prompt = prompt
  ∧ (desc = "" → (applyCreateUpdate model prompt desc a).description = a.description)
  ∧ (desc ≠ "" → (applyCreateUpdate model prompt desc a).description = desc)
  ∧ (model = "" → (applyCreateUpdate model prompt desc a).model = a.model) := by
  unfold applyCreateUpdate
  by_cases hm : model ≠ "" <;> by_cases hd : desc ≠ "" <;> simp [hm, hd]

/-! ## Claim theorems: version counter (C1) -/

/-- C1 counterexample: executing EditAt changes the visible content of the
persona's public history but leaves the version counter unchanged, so the
claim that every visible-content mutation increments the counter by
exactly one is false. -/
theorem C1_counterexample :
    (execEditAt cfgDemo "Bot" false "u" 1 "edited").agents.map (fun a => a.public_history)
      ≠ cfgDemo.agents.map (fun a => a.public_history)
  ∧ (execEditAt cfgDemo "Bot" false "u" 1 "edited").agents.map (fun a => a.generation_id)
      = cfgDemo.agents.map (fun a => a.generation_id) := by
  constructor <;> decide

/-- C1 (amended): appending a new user message, stopping generation, and
the clear operations each increment the target persona's version counter
by exactly one; EditAt and DeleteAt leave it unchanged; and no modelled
operation ever decreases it. -/
theorem C1_version_counter (c : Config) (name uid : String) (priv : Bool)
    (m : ChatMessage) (idx : Nat) (txt : String) (idxs : List Nat) (a : Agent)
    (h : c.agents.find? (fun x => x.name == name) = some a) :
    agentGen (execChatAppend c name priv uid m) name = some (a.generation_id + 1)
  ∧ agentGen (execStop c name) name = some (a.generation_id + 1)
  ∧ agentGen (execClearHistory c name priv uid) name = some (a.generation_id + 1)
  ∧ agentGen (execClearAllPublic c) name = some (a.generation_id + 1)
  ∧ agentGen (execClearEverything c) name = some (a.generation_id + 1)
  ∧ agentGen (execEditAt c name priv uid idx txt) name = some a.generation_id
  ∧ agentGen (execDeleteAt c name priv uid idxs) name = some a.generation_id
  ∧ (∀ op : ExecOp, ∀ n, agentGen (applyOp c op) name = some n →
      a.generation_id ≤ n) := by
  refine ⟨?_, ?_, ?_, ?_, ?_, ?_, ?_, ?_⟩
  · unfold execChatAppend
    rw [agentGen_update_self c name _ a (fun x => by simp [withHistory_name]) h]
    simp [withHistory_gen]
  · unfold execStop
    rw [agentGen_update_self c name _ a (by intro x; rfl) h]
  · unfold execClearHistory
    rw [agentGen_update_self c name _ a (fun x => by simp [clear_history_name]) h]
    simp [clear_history_gen]
  · unfold execClearAllPublic
    rw [agentGen_map_self c name _ a (by intro x; rfl) h]
  · unfold execClearEverything
    rw [agentGen_map_self c name _ a (by intro x; rfl) h]
  · unfold execEditAt
    rw [agentGen_update_self c name _ a (fun x => withHistory_name x priv uid _) h]
    simp [withHistory_gen]
  · unfold execDeleteAt
    rw [agentGen_update_self c name _ a (fun x => withHistory_name x priv uid _) h]
    simp [withHistory_gen]
  · intro op n hn
    cases op with
    | chatAppend nm p2 u2 m2 =>
      simp only [applyOp, execChatAppend] at hn
      refine agentGen_update_ge c nm name _ a
        (fun x => by simp [withHistory_name])
        (fun x => ?_) h n hn
      show x.generation_id ≤ (withHistory x p2 u2 (fun h => h ++ [m2])).generation_id + 1
      rw [withHistory_gen]
      omega
    | stop nm =>
      simp only [applyOp, execStop] at hn
      exact agentGen_update_ge c nm name _ a (by intro x; rfl)
        (by intro x; exact Nat.le_succ _) h n hn
    | editAt nm p2 u2 i2 t2 =>
      simp only [applyOp, execEditAt] at hn
      exact agentGen_update_ge c nm name _ a
        (fun x => withHistory_name x p2 u2 _)
        (fun x => le_of_eq (withHistory_gen x p2 u2 _).symm) h n hn
    | deleteAt nm p2 u2 is2 =>
      simp only [applyOp, execDeleteAt] at hn
      exact agentGen_update_ge c nm name _ a
        (fun x => withHistory_name x p2 u2 _)
        (fun x => le_of_eq (withHistory_gen x p2 u2 _).symm) h n hn
    | clearHistory nm p2 u2 =>
      simp only [applyOp, execClearHistory] at hn
      refine agentGen_update_ge c nm name _ a
        (fun x => by simp [clear_history_name])
        (fun x => ?_) h n hn
      show x.generation_id ≤ (x.clear_history p2 u2).generation_id + 1
      rw [clear_history_gen]
      omega
    | clearAllPublic =>
      simp only [applyOp, execClearAllPublic] at hn
      rw [agentGen_map_self c name _ a (by intro x; rfl) h] at hn
      injection hn with hn
      simp only at hn
      omega
    | clearEverything =>
      simp only [applyOp, execClearEverything] at hn
      rw [agentGen_map_self c name _ a (by intro x; rfl) h] at hn
      injection hn with hn
      simp only at hn
      omega

/-- C1 witness: the amended description on the demo registry. -/
theorem C1_version_counter_witness :
    (cfgDemo.agents.find? (fun x => x.name == "Bot") = some botDemo)
  ∧ agentGen (execStop cfgDemo "Bot") "Bot" = some (botDemo.generation_id + 1)
  ∧ agentGen (execEditAt cfgDemo "Bot" false "u" 1 "x") "Bot"
      = some botDemo.generation_id :=
  ⟨by decide,
   (C1_version_counter cfgDemo "Bot" "u" false botMsg 1 "x" [] botDemo (by decide)).2.1,
   (C1_version_counter cfgDemo "Bot" "u" false botMsg 1 "x" [] botDemo
      (by decide)).2.2.2.2.2.1⟩

/-! ## Claim theorems: create updates in place (C10) -/

/-- C10: creating with the name of an already-registered persona updates
that persona in place — system prompt always overwritten with the supplied
prompt, description only when the argument is non-empty, model only when
the argument is non-empty — while the public history, the private
histories, the version counter and the creation time stay unchanged, and
every other persona is untouched. -/
theorem C10_create_updates_in_place (c : Config) (name desc model prompt : String)
    (pre post : List Agent) (a : Agent)
    (hagents : c.agents = pre ++ a :: post)
    (hpre : ∀ b ∈ pre, b.name ≠ name)
    (ha : a.name = name) :
    ∃ a', (handle_create c name desc model prompt).agents = pre ++ a' :: post
      ∧ a'.name = a.name
      ∧ a'.public_history = a.public_history
      ∧ a'.private_histories = a.private_histories
      ∧ a'.generation_id = a.generation_id
      ∧ a'.created_at = a.created_at
      ∧ a'.system_prompt = prompt
      ∧ (desc = "" → a'.description = a.description)
      ∧ (desc ≠ "" → a'.description = desc)
      ∧ (model = "" → a'.model = a.model) := by
  have hany : c.agents.any (fun x => x.name == name) = true := by
    rw [hagents]
    exact List.any_eq_true.mpr ⟨a, by simp, beq_iff_eq.mpr ha⟩
  simp only [handle_create, hany, not_true, and_false, if_false, if_true]
  rw [hagents, updateAgentNamed_decomp pre post a name _ hpre ha]
  refine ⟨applyCreateUpdate ((resolve_model model c.models).getD model) prompt desc a,
    rfl,
    (applyCreateUpdate_frame _ _ _ _).1,
    (applyCreateUpdate_frame _ _ _ _).2.1,
    (applyCreateUpdate_frame _ _ _ _).2.2.1,
    (applyCreateUpdate_frame _ _ _ _).2.2.2.1,
    (applyCreateUpdate_frame _ _ _ _).2.2.2.2.1,
    (applyCreateUpdate_frame _ _ _ _).2.2.2.2.2.1,
    (applyCreateUpdate_frame _ _ _ _).2.2.2.2.2.2.1,
    (applyCreateUpdate_frame _ _ _ _).2.2.2.2.2.2.2.1,
    ?_⟩
  intro hm
  have hres : (resolve_model model c.models).getD model = "" := by
    subst hm; simp [resolve_model]
  exact (applyCreateUpdate_frame _ _ _ _).2.2.2.2.2.2.2.2 hres

/-- C10 witness: updating the demo persona in place with a new prompt. -/
theorem C10_create_updates_in_place_witness :
    (cfgDemo.agents = [] ++ botDemo :: [] ∧ botDemo.name = "Bot")
  ∧ ∃ a', (handle_create cfgDemo "Bot" "" "" "newp").agents = [] ++ a' :: []
      ∧ a'.name = botDemo.name
      ∧ a'.public_history = botDemo.public_history
      ∧ a'.private_histories = botDemo.private_histories
      ∧ a'.generation_id = botDemo.generation_id
      ∧ a'.created_at = botDemo.created_at
      ∧ a'.system_prompt = "newp"
      ∧ ("" = "" → a'.description = botDemo.description)
      ∧ (("" : String) ≠ "" → a'.description = "")
      ∧ ("" = "" → a'.model = botDemo.model) :=
  ⟨⟨by decide, by decide⟩,
   C10_create_updates_in_place cfgDemo "Bot" "" "" "newp" [] [] botDemo
     (by decide) (by simp) (by decide)⟩

/-! ## Claim theorems: name validation (C5) -/

/-- C5 counterexample: creating `bot` while `Bot` is registered appends a
second persona whose name differs from the existing one only by letter
case, so case-insensitive uniqueness does not hold. -/
theorem C5_counterexample :
    (handle_create cfgDemo "bot" "" "" "x").agents.map (fun a => a.name) = ["Bot", "bot"]
  ∧ toLowerL ("Bot".data) = toLowerL ("bot".data) := by
  constructor <;> decide

/-- C5 (amended): copy and rename validate the new name — empty, longer
than 7 scalar values, or containing a reserved symbol is rejected with no
state change — and reject an exact (case-sensitive) duplicate; a valid,
exactly-fresh rename renames the persona in place; the create parser only
ever produces validated names.  Uniqueness is exact-match only, so names
differing only by case can coexist. -/
theorem C5_name_validation (c : Config) (name args : String)
    (pre post : List Agent) (a : Agent) :
    (execCopy c name "" = c ∧ execRename c name "" = c)
  ∧ ((7 < args.length || args.data.any (fun ch => reservedSyms.contains ch)) = true →
      execCopy c name args = c ∧ execRename c name args = c)
  ∧ ((∃ b ∈ c.agents, b.name = args) →
      execCopy c name args = c ∧ execRename c name args = c)
  ∧ (args ≠ "" →
     (7 < args.length || args.data.any (fun ch => reservedSyms.contains ch)) = false →
     (∀ b ∈ c.agents, b.name ≠ args) →
     c.agents = pre ++ a :: post →
     (∀ b ∈ pre, b.name ≠ name) →
     a.name = name →
     (execRename c name args).agents = pre ++ ({ a with name := args }) :: post)
  ∧ (∀ (raw n d m p : List Char),
      parse_create raw = Except.ok (some (n, d, m, p)) →
        n ≠ [] ∧ n.length ≤ 7 ∧ ∀ ch ∈ n, reservedSyms.contains ch = false) := by
  refine ⟨⟨by simp [execCopy], by simp [execRename]⟩, ?_, ?_, ?_, ?_⟩
  · intro hbad
    constructor
    · unfold execCopy
      by_cases hae : args = ""
      · rw [if_pos hae]
      · rw [if_neg hae, if_pos hbad]
    · unfold execRename
      by_cases hae : args = ""
      · rw [if_pos hae]
      · rw [if_neg hae, if_pos hbad]
  · rintro ⟨b, hb, hbn⟩
    have hany : c.agents.any (fun x => x.name == args) = true :=
      List.any_eq_true.mpr ⟨b, hb, beq_iff_eq.mpr hbn⟩
    constructor
    · unfold execCopy
      by_cases hae : args = ""
      · rw [if_pos hae]
      · rw [if_neg hae]
        by_cases hbad : (7 < args.length || args.data.any
            (fun ch => reservedSyms.contains ch)) = true
        · rw [if_pos hbad]
        · rw [if_neg hbad, if_pos hany]
    · unfold execRename
      by_cases hae : args = ""
      · rw [if_pos hae]
      · rw [if_neg hae]
        by_cases hbad : (7 < args.length || args.data.any
            (fun ch => reservedSyms.contains ch)) = true
        · rw [if_pos hbad]
        · rw [if_neg hbad, if_pos hany]
  · intro hne hok hfresh hagents hpre ha
    have hnotany : ¬ (c.agents.any (fun x => x.name == args) = true) := by
      intro hany
      obtain ⟨x, hx, hpx⟩ := List.any_eq_true.mp hany
      exact hfresh x hx (beq_iff_eq.mp hpx)
    unfold execRename
    rw [if_neg hne, if_neg (by rw [hok]; simp), if_neg hnotany]
    simp only
    rw [hagents, updateAgentNamed_decomp pre post a name _ hpre ha]
  · intro raw n d m p hok
    simp only [parse_create] at hok
    split at hok
    · split at hok
      · exact Except.noConfusion hok
      · split at hok
        · exact Except.noConfusion hok
        · split at hok
          · injection hok with hok
            exact Option.noConfusion hok
          · next hval =>
            split at hok
            · exact Except.noConfusion hok
            · split at hok
              · injection hok with hok
                exact Option.noConfusion hok
              · injection hok with hok
                injection hok with hok
                have hn := congrArg (fun q => q.1) hok
                simp only at hn
                simp only [Bool.or_eq_true, decide_eq_true_eq, not_or] at hval
                subst hn
                refine ⟨hval.1.1, ?_, ?_⟩
                · have := hval.1.2
                  omega
                · intro ch hch
                  cases hcc : reservedSyms.contains ch
                  · rfl
                  · exact absurd (List.any_eq_true.mpr ⟨ch, hch, hcc⟩) hval.2
    · injection hok with hok
      exact Option.noConfusion hok

/-- C5 witness: a concrete valid, exactly-fresh rename on the demo
registry. -/
theorem C5_name_validation_witness :
    ((("Bo2" : String) ≠ ""
      ∧ (7 < ("Bo2" : String).length
          || ("Bo2" : String).data.any (fun ch => reservedSyms.contains ch)) = false
      ∧ (∀ b ∈ cfgDemo.agents, b.name ≠ "Bo2")
      ∧ cfgDemo.agents = [] ++ botDemo :: [])
    ∧ (execRename cfgDemo "Bot" "Bo2").agents = [] ++ ({ botDemo with name := "Bo2" }) :: []) :=
  ⟨⟨by decide, by decide, by decide, by decide⟩,
   (C5_name_validation cfgDemo "Bot" "Bo2" [] [] botDemo).2.2.2.1
     (by decide) (by decide) (by decide) (by decide) (by simp) (by decide)⟩

end Oai
